import Mathlib

/-!
Verification of the file-listing / filtering / caching / bounded-concurrency
read pipeline of the code-merge-mcp repository.

The JavaScript sources are shallowly embedded as executable Lean functions:
  - `src/core/filter.js`        → `shouldIgnore`, `DEFAULT_BLACKLIST`, `BINARY_EXTENSIONS`
  - `src/core/file-lister.js`   → `listFilesRecursive`, `listFiles`
  - `src/core/file-cache.js`    → `FileCache` (state record) with `set`, `get`, `invalidate`
  - `src/core/batch-processor.js` → `BatchProcessor` event-step machine
  - `src/core/file-reader.js`   → `readFiles` (naive version)
  - optimized `file-reader.js`  → `smartReadFile`, `readFileWithCache`, `readFilesOptimized`

Filesystem interaction is modelled by explicit oracles (content / stat outcomes
passed as parameters), and the single-threaded event-loop concurrency of Node
is modelled by explicit event sequences.
-/

/-! ## Path string utilities

The JavaScript code normalizes separators with `relativePath.replace(/\\/g, '/')`,
splits on `'/'`, and computes `path.extname` of the normalized path.  These are
modelled character-wise so that everything reduces in the kernel. -/

/-- JS `relativePath.replace(/\\/g, '/')`: every backslash becomes a forward slash. -/
def normalizeSep (s : String) : String :=
  String.mk (s.data.map (fun c => if c = '\\' then '/' else c))

/-- JS `String.prototype.split('/')` on the character list: splits at every `'/'`,
keeping empty pieces (`"".split('/') = [""]`, `"/a".split('/') = ["", "a"]`). -/
def splitSlash : List Char → List (List Char)
  | [] => [[]]
  | c :: rest =>
    if c = '/' then [] :: splitSlash rest
    else
      match splitSlash rest with
      | [] => [[c]]
      | h :: t => (c :: h) :: t

/-- The non-empty path segments of a normalized path
(JS: `normalizedPath.split('/').filter(part => part !== '')`). -/
def pathPartsOf (normalizedPath : String) : List String :=
  ((splitSlash normalizedPath.data).map String.mk).filter (fun part => part ≠ "")

/-- Characters of the basename strictly before the first `'.'` when scanning the
reversed basename; `none` when the basename has no dot. -/
def takeUntilDot : List Char → Option (List Char)
  | [] => none
  | c :: rest =>
    if c = '.' then some []
    else (takeUntilDot rest).map (fun l => c :: l)

/-- Node `path.extname` on a POSIX-normalized path: the extension of the last
path segment, from its last `'.'` to its end; `""` when the basename has no dot
or its only relevant dot is the leading character (dotfiles such as `.gitignore`). -/
def extname (p : String) : String :=
  let base : List Char := ((splitSlash p.data).getLastD [])
  match takeUntilDot base.reverse with
  | none => ""
  | some revSuffix =>
    if revSuffix.length + 1 = base.length then ""
    else String.mk ('.' :: revSuffix.reverse)

/-- JS `String.prototype.toLowerCase()` modelled character-wise (the extension
set only contains ASCII, where `Char.toLower` agrees with JS). -/
def lowerAscii (s : String) : String :=
  String.mk (s.data.map Char.toLower)

/-- `path.relative` specialised to the traversal: joining a parent's relative
path with an entry name (empty parent = root level). -/
def relJoin (pre name : String) : String :=
  if pre = "" then name else pre ++ "/" ++ name

/-- `path.join(rootPath, relativeFilePath)` for the read pipeline. -/
def pathJoin (root rel : String) : String :=
  if root = "" then rel else root ++ "/" ++ rel

/-! ## JS `Map` as an insertion-ordered association list -/

/-- Lookup in an insertion-ordered association list (JS `Map.prototype.get`). -/
def lookupMap {α : Type} : List (String × α) → String → Option α
  | [], _ => none
  | (k', v) :: rest, k => if k' = k then some v else lookupMap rest k

/-- JS `Map.prototype.set`: update in place when the key exists (its position
is kept), otherwise append at the end (insertion order). -/
def mapSet {α : Type} : List (String × α) → String → α → List (String × α)
  | [], k, v => [(k, v)]
  | (k', v') :: rest, k, v =>
    if k' = k then (k, v) :: rest else (k', v') :: mapSet rest k v

/-- JS `Map.prototype.delete`: remove the entry with the given key. -/
def mapDelete {α : Type} : List (String × α) → String → List (String × α)
  | [], _ => []
  | (k', v') :: rest, k =>
    if k' = k then rest else (k', v') :: mapDelete rest k

/-! ## `src/core/filter.js` -/

/-- `DEFAULT_BLACKLIST` from `src/core/filter.js`. -/
def DEFAULT_BLACKLIST : List String :=
  ["node_modules", "dist", "build", "target", "bin", "obj", "vendor",
   ".git", ".idea", ".vscode", "__pycache__", "venv", "env", ".env",
   "coverage", "tmp", "temp"]

/-- `BINARY_EXTENSIONS` from `src/core/filter.js`. -/
def BINARY_EXTENSIONS : List String :=
  [".jpg", ".jpeg", ".png", ".gif", ".bmp", ".ico", ".webp", ".tif", ".tiff",
   ".mp4", ".avi", ".mov", ".wmv", ".flv", ".mkv", ".webm",
   ".mp3", ".wav", ".ogg", ".m4a", ".flac",
   ".pdf", ".zip", ".rar", ".7z", ".tar", ".gz", ".bz2", ".xz",
   ".exe", ".dll", ".so", ".dylib", ".app",
   ".iso", ".img", ".dmg",
   ".doc", ".docx", ".ppt", ".pptx", ".xls", ".xlsx",
   ".odt", ".ods", ".odp",
   ".eot", ".otf", ".ttf", ".woff", ".woff2",
   ".jar", ".class",
   ".pyc", ".pyo",
   ".deb", ".rpm", ".msi", ".pkg"]

/-- The options record taken by `shouldIgnore`.  The external `ignore` library
instance is modelled as an abstract predicate on normalized paths
(`gitignoreInstance.ignores(normalizedPath)`), `none` standing for JS `null`. -/
structure FilterOptions where
  useGitignore : Bool := true
  ignoreGit : Bool := true
  customBlacklist : List String := []
  gitignoreInstance : Option (String → Bool) := none

/-- `shouldIgnore(relativePath, options)` from `src/core/filter.js`:
normalize separators, split into non-empty segments, then evaluate in order:
the `.git` first-segment rule (absolute override when `ignoreGit` is false),
the custom blacklist (any segment, or the full normalized path), the default
blacklist (any segment), the gitignore matcher, and the binary-extension check. -/
def shouldIgnore (relativePath : String) (options : FilterOptions) : Bool :=
  let normalizedPath := normalizeSep relativePath
  let pathParts := pathPartsOf normalizedPath
  if pathParts.headD "" = ".git" then
    if !options.ignoreGit then false else true
  else if options.customBlacklist.length > 0 &&
      (pathParts.any (fun part => options.customBlacklist.contains part) ||
       options.customBlacklist.contains normalizedPath) then
    true
  else if pathParts.any (fun part => DEFAULT_BLACKLIST.contains part) then
    true
  else if options.useGitignore &&
      (match options.gitignoreInstance with
       | some ig => ig normalizedPath
       | none => false) then
    true
  else if BINARY_EXTENSIONS.contains (lowerAscii (extname normalizedPath)) then
    true
  else
    false

example : shouldIgnore "node_modules/x.js" {} = true := by decide
example : shouldIgnore "src/main.js" {} = false := by decide
example : shouldIgnore ".git/HEAD" {} = true := by decide
example : shouldIgnore "a.bin" {} = false := by decide
example : shouldIgnore "a.png" {} = true := by decide
example : shouldIgnore ".git/HEAD" { ignoreGit := false } = false := by decide

/-! ## `src/core/file-lister.js`

The filesystem subtree handed to the traversal is modelled as a rose tree of
named entries (mutual inductives keep all recursion structural, hence
kernel-computable).  `fs.readdir` order is the listed child order. -/

mutual
inductive FSEntry where
  | file (name : String)
  | dir (name : String) (children : FSList)
inductive FSList where
  | nil
  | cons (e : FSEntry) (rest : FSList)
end

mutual
/-- `listFilesRecursive(startPath, rootPath, filterOptions)`: walk the entries
of a directory whose path relative to the root is `pre`; an entry that
`shouldIgnore` accepts is skipped together with its whole subtree; surviving
files are emitted, surviving directories are recursed into. -/
def listFilesRecursive (options : FilterOptions) : FSList → String → List String
  | FSList.nil, _ => []
  | FSList.cons e rest, pre =>
    listEntry options e pre ++ listFilesRecursive options rest pre

/-- One iteration of the `for (const item of items)` loop of
`listFilesRecursive`: the ignore check, then the file/directory dispatch. -/
def listEntry (options : FilterOptions) : FSEntry → String → List String
  | FSEntry.file name, pre =>
    if shouldIgnore (relJoin pre name) options then [] else [relJoin pre name]
  | FSEntry.dir name children, pre =>
    if shouldIgnore (relJoin pre name) options then []
    else listFilesRecursive options children (relJoin pre name)
end

/-- The filter-options record assembled by `listFiles`: the gitignore instance
is only consulted when `useGitignore` is set (otherwise it is never loaded). -/
def listFilesOptions (useGitignore ignoreGit : Bool) (customBlacklist : List String)
    (loadedGitignore : Option (String → Bool)) : FilterOptions :=
  { useGitignore := useGitignore,
    ignoreGit := ignoreGit,
    customBlacklist := customBlacklist,
    gitignoreInstance := if useGitignore then loadedGitignore else none }

/-- `listFiles(directoryPath, options)` from `src/core/file-lister.js`:
assemble the filter options (with the `.gitignore` matcher that
`loadGitignore` would produce — `none` when the root has no readable
`.gitignore`) and start the recursion at the root with empty relative path. -/
def listFiles (tree : FSList) (useGitignore ignoreGit : Bool)
    (customBlacklist : List String) (loadedGitignore : Option (String → Bool)) :
    List String :=
  listFilesRecursive (listFilesOptions useGitignore ignoreGit customBlacklist loadedGitignore)
    tree ""

/-- The root directory of the spec's scenario: `a.bin`, `node_modules/x.js`,
`src/main.js`, `.git/HEAD` (no `.gitignore`, so the loaded matcher is `none`). -/
def scenarioTree : FSList :=
  FSList.cons (FSEntry.file "a.bin")
    (FSList.cons (FSEntry.dir "node_modules" (FSList.cons (FSEntry.file "x.js") FSList.nil))
      (FSList.cons (FSEntry.dir "src" (FSList.cons (FSEntry.file "main.js") FSList.nil))
        (FSList.cons (FSEntry.dir ".git" (FSList.cons (FSEntry.file "HEAD") FSList.nil))
          FSList.nil)))

/-- The same scenario with `a.png` — an extension that IS in
`BINARY_EXTENSIONS` — in place of `a.bin`. -/
def scenarioTreePng : FSList :=
  FSList.cons (FSEntry.file "a.png")
    (FSList.cons (FSEntry.dir "node_modules" (FSList.cons (FSEntry.file "x.js") FSList.nil))
      (FSList.cons (FSEntry.dir "src" (FSList.cons (FSEntry.file "main.js") FSList.nil))
        (FSList.cons (FSEntry.dir ".git" (FSList.cons (FSEntry.file "HEAD") FSList.nil))
          FSList.nil)))

example : listFiles scenarioTree true true [] none = ["a.bin", "src/main.js"] := by decide
example : listFiles scenarioTreePng true true [] none = ["src/main.js"] := by decide
example : listFiles scenarioTree true false [] none = ["a.bin", "src/main.js", ".git/HEAD"] := by decide

/-! ## `src/core/file-cache.js`

The cache is a state record; `Date.now()` and the filesystem (`fs.stat`,
`fs.readFile`) are passed in as explicit values/oracles at each call. -/

/-- A cache entry: `{ content, timestamp, mtime, size }` as stored by the code. -/
structure CacheEntry where
  content : String
  timestamp : Nat
  mtime : Int
  size : Nat
deriving Repr, DecidableEq

/-- The `FileCache` instance state: capacity, TTL, the insertion-ordered map,
and the `stats` counters. -/
structure FileCache where
  maxSize : Nat
  ttl : Nat
  cache : List (String × CacheEntry)
  hits : Nat
  misses : Nat
  evictions : Nat
  sizeStat : Nat
  bytesStored : Int
deriving Repr, DecidableEq

/-- The constructor: `maxSize = options.maxSize || 1000`, `ttl = options.ttl || 300000`,
empty map, zeroed stats.  The `||` defaulting means a constructed instance always
has `maxSize ≥ 1` and `ttl ≥ 1`; claims pass such values explicitly. -/
def FileCache.init (maxSize ttl : Nat) : FileCache :=
  { maxSize := maxSize, ttl := ttl, cache := [],
    hits := 0, misses := 0, evictions := 0, sizeStat := 0, bytesStored := 0 }

/-- `generateKey(filePath)` computes an MD5 hex digest of the path; the code
relies only on the key being a deterministic function of the path, so the
digest is modelled as the identity encoding. -/
def generateKey (filePath : String) : String := filePath

/-- `FileCache.set(key, value)`: when the map is at (or beyond) capacity, the
oldest-inserted key is evicted first (`cache.keys().next().value` is the head
of the insertion order), then the value is stored and the byte/size counters
updated.  The empty-map eviction branch would dereference `undefined` in JS;
it is unreachable for constructed instances (`maxSize ≥ 1` and the size
invariant) and modelled as a no-op. -/
def FileCache.set (st : FileCache) (key : String) (value : CacheEntry) : FileCache :=
  let st1 :=
    if st.maxSize ≤ st.cache.length then
      match st.cache with
      | (_, oldEntry) :: rest =>
        { st with cache := rest,
                  evictions := st.evictions + 1,
                  bytesStored := st.bytesStored - oldEntry.content.length }
      | [] => st
    else st
  { st1 with cache := mapSet st1.cache key value,
             sizeStat := (mapSet st1.cache key value).length,
             bytesStored := st1.bytesStored + value.content.length }

/-- Outcome of an `fs.stat` call: modification time (ms) and size in bytes,
or a thrown error. -/
inductive StatOutcome where
  | ok (mtimeMs : Int) (size : Nat)
  | fail
deriving Repr, DecidableEq

/-- The expiry path inside `get` (present entry that is TTL-expired or
mtime-stale): delete the entry, count an eviction, refresh the size counter,
subtract the stored bytes. -/
def FileCache.expireEntry (st : FileCache) (key : String) (cacheEntry : CacheEntry) : FileCache :=
  { st with cache := mapDelete st.cache key,
            evictions := st.evictions + 1,
            sizeStat := (mapDelete st.cache key).length,
            bytesStored := st.bytesStored - cacheEntry.content.length }

/-- The shared miss path at the end of `get`: count a miss, then
`fs.readFile` + `fs.stat`; on success store the fresh entry via `set` and
return the content, on either failure throw the wrapped read error. -/
def FileCache.readMiss (st : FileCache) (key filePath : String) (now : Nat)
    (stat : StatOutcome) (readResult : Except String String) :
    Except String String × FileCache :=
  let st := { st with misses := st.misses + 1 }
  match readResult, stat with
  | Except.ok content, StatOutcome.ok m _ =>
    (Except.ok content,
     st.set key { content := content, timestamp := now, mtime := m, size := content.length })
  | Except.ok _, StatOutcome.fail =>
    (Except.error ("读取文件 " ++ filePath ++ " 失败"), st)
  | Except.error e, _ =>
    (Except.error ("读取文件 " ++ filePath ++ " 失败: " ++ e), st)

/-- `FileCache.get(filePath)`: on a present, TTL-fresh entry, validate against
`fs.stat` — a stat failure is absorbed and counted as a hit; an unchanged
mtime is a hit; an advanced mtime (and likewise TTL expiry) deletes the entry
and falls through to the miss path, which re-reads and re-caches the file.
`now` is `Date.now()`, `stat`/`readResult` are the filesystem outcomes. -/
def FileCache.get (st : FileCache) (filePath : String) (now : Nat)
    (stat : StatOutcome) (readResult : Except String String) :
    Except String String × FileCache :=
  let key := generateKey filePath
  match lookupMap st.cache key with
  | some cacheEntry =>
    if now - cacheEntry.timestamp < st.ttl then
      match stat with
      | StatOutcome.ok m _ =>
        if m ≤ cacheEntry.mtime then
          (Except.ok cacheEntry.content, { st with hits := st.hits + 1 })
        else
          (st.expireEntry key cacheEntry).readMiss key filePath now stat readResult
      | StatOutcome.fail =>
        (Except.ok cacheEntry.content, { st with hits := st.hits + 1 })
    else
      (st.expireEntry key cacheEntry).readMiss key filePath now stat readResult
  | none => st.readMiss key filePath now stat readResult

/-- `FileCache.invalidate(filePath)` with a path: remove that entry (if present)
and update the counters. -/
def FileCache.invalidateKey (st : FileCache) (filePath : String) : FileCache :=
  let key := generateKey filePath
  match lookupMap st.cache key with
  | some entry =>
    { st with bytesStored := st.bytesStored - entry.content.length,
              cache := mapDelete st.cache key,
              sizeStat := (mapDelete st.cache key).length }
  | none => st

/-- `FileCache.invalidate()` without a path: clear everything. -/
def FileCache.invalidateAll (st : FileCache) : FileCache :=
  { st with cache := [], sizeStat := 0, bytesStored := 0 }

/-- The cache-mutating operations of the `FileCache` interface: `set`, a full
`get` (with its filesystem outcomes), `invalidate(path)` and `invalidate()`. -/
inductive CacheOp where
  | setOp (key : String) (value : CacheEntry)
  | getOp (filePath : String) (now : Nat) (stat : StatOutcome) (readResult : Except String String)
  | invalidateOp (filePath : String)
  | clearOp

/-- Apply one `CacheOp` to the cache state. -/
def applyOp (st : FileCache) : CacheOp → FileCache
  | CacheOp.setOp key value => st.set key value
  | CacheOp.getOp filePath now stat readResult => (st.get filePath now stat readResult).2
  | CacheOp.invalidateOp filePath => st.invalidateKey filePath
  | CacheOp.clearOp => st.invalidateAll

/-! ## `src/core/batch-processor.js`

The concurrency-relevant state of a `BatchProcessor` and the two event-loop
events that mutate it: a synchronous `add(task)` (push + `processQueue`) and
the `.finally` handler of a settling task (decrement `running` +
`processQueue`).  Node's single-threaded event loop makes each such event
atomic, so a run of the limiter is exactly a sequence of these events. -/

structure BatchProcessor where
  concurrency : Nat
  running : Nat
  queue : List Nat
deriving Repr, DecidableEq

/-- `processQueue()`: return immediately when `running >= concurrency` or the
queue is empty; otherwise shift one task off the queue and increment `running`. -/
def BatchProcessor.processQueue (st : BatchProcessor) : BatchProcessor :=
  if st.concurrency ≤ st.running then st
  else
    match st.queue with
    | [] => st
    | _ :: rest => { st with queue := rest, running := st.running + 1 }

/-- An event-loop event touching the limiter state: a task is added, or an
in-flight task settles. -/
inductive BatchEvent where
  | add (id : Nat)
  | settle

/-- One event: `add` pushes onto the queue then calls `processQueue`; a settle
runs the `.finally` handler (`running--` then `processQueue`).  A settle can
only happen when a task is in flight; with `running = 0` there is no such
event and the state is unchanged. -/
def BatchProcessor.step (st : BatchProcessor) : BatchEvent → BatchProcessor
  | BatchEvent.add id => BatchProcessor.processQueue { st with queue := st.queue ++ [id] }
  | BatchEvent.settle =>
    if st.running = 0 then st
    else BatchProcessor.processQueue { st with running := st.running - 1 }

/-- `new BatchProcessor(concurrency)`: no task running, empty queue. -/
def BatchProcessor.init (concurrency : Nat) : BatchProcessor :=
  { concurrency := concurrency, running := 0, queue := [] }

/-- The limiter state after an arbitrary prefix of event-loop events. -/
def BatchProcessor.runEvents (concurrency : Nat) (events : List BatchEvent) : BatchProcessor :=
  events.foldl BatchProcessor.step (BatchProcessor.init concurrency)

/-! ## `src/core/file-reader.js` — naive version

The filesystem is an oracle `fsRead : absolutePath → content-or-error`.
Each path is read independently (`Promise.allSettled`); a failed read only
logs and leaves the map untouched.  The event-loop interleaving only affects
the `Map` insertion order, never which keys map to which content; the model
fixes input order. -/

/-- `readFiles(relativeFilePaths, rootPath)` (naive version): resolve each
relative path against the root, read it, store successes in the result map,
silently skip failures. -/
def readFiles (relativeFilePaths : List String) (rootPath : String)
    (fsRead : String → Except String String) : List (String × String) :=
  relativeFilePaths.foldl
    (fun fileContents relativeFilePath =>
      match fsRead (pathJoin rootPath relativeFilePath) with
      | Except.ok content => mapSet fileContents relativeFilePath content
      | Except.error _ => fileContents)
    []

example : readFiles ["missing.txt"] "root" (fun _ => Except.error "ENOENT") = [] := by decide
example : readFiles ["a.txt", "b.txt"] ""
    (fun p => if p = "a.txt" then Except.ok "A" else Except.error "ENOENT") =
    [("a.txt", "A")] := by decide

/-! ## optimized `src/core/file-reader.js` (part_005)

The optimized reader routes every path through the module's `BatchProcessor`
(concurrency 8) and `FileCache` (maxSize 500, ttl 600000).  On Node's
single-threaded event loop the batch only interleaves at I/O suspension
points, and the per-path task bodies touch disjoint map keys, so the
key-to-content outcome equals the sequential fold modelled here.  The
filesystem oracles are `fsRead` (content) and `fsStat` (mtime + size). -/

/-- `readFileStream(filePath)`: chunked accumulation of the file's content;
the concatenation of all chunks is the full content, i.e. the same string the
read oracle yields. -/
def readFileStream (fsRead : String → Except String String) (filePath : String) :
    Except String String :=
  fsRead filePath

/-- `smartReadFile(filePath)`: stat the file; below 1 MiB read in one
operation, otherwise stream; any stat/read error is rethrown wrapped. -/
def smartReadFile (fsRead : String → Except String String)
    (fsStat : String → StatOutcome) (filePath : String) : Except String String :=
  match fsStat filePath with
  | StatOutcome.fail => Except.error ("读取文件 " ++ filePath ++ " 失败")
  | StatOutcome.ok _ size =>
    match (if size < 1024 * 1024 then fsRead filePath else readFileStream fsRead filePath) with
    | Except.ok content => Except.ok content
    | Except.error e => Except.error ("读取文件 " ++ filePath ++ " 失败: " ++ e)

/-- `readFileWithCache(filePath)`: try `fileCache.get`; when it throws, fall
back to `smartReadFile` and best-effort insert the result into the cache
(a failing stat during that insert is swallowed). -/
def readFileWithCache (st : FileCache) (now : Nat)
    (fsRead : String → Except String String) (fsStat : String → StatOutcome)
    (filePath : String) : Except String String × FileCache :=
  match FileCache.get st filePath now (fsStat filePath) (fsRead filePath) with
  | (Except.ok content, st') => (Except.ok content, st')
  | (Except.error _, st') =>
    match smartReadFile fsRead fsStat filePath with
    | Except.error e => (Except.error e, st')
    | Except.ok content =>
      match fsStat filePath with
      | StatOutcome.ok m _ =>
        (Except.ok content,
         st'.set (generateKey filePath)
           { content := content, timestamp := now, mtime := m, size := content.length })
      | StatOutcome.fail => (Except.ok content, st')

/-- One per-path task body of the optimized `readFiles` (the function handed
to `processBatch`), threading the module's cache state: resolve the absolute
path, read through the cache, record a success in the result map, skip a
failure. -/
def readFilesStep (fsRead : String → Except String String) (fsStat : String → StatOutcome)
    (now : Nat) (rootPath : String)
    (acc : List (String × String) × FileCache) (relativeFilePath : String) :
    List (String × String) × FileCache :=
  let absolutePath := pathJoin rootPath relativeFilePath
  match readFileWithCache acc.2 now fsRead fsStat absolutePath with
  | (Except.ok content, st') => (mapSet acc.1 relativeFilePath content, st')
  | (Except.error _, st') => (acc.1, st')

/-- The optimized `readFiles(relativeFilePaths, rootPath, options)` with the
default `useCache = true`: every path goes through `readFileWithCache`
against the module's cache instance (`maxSize 500`, `ttl 600000`, initially
empty); successes land in the result map, failures are logged and skipped. -/
def readFilesOptimized (relativeFilePaths : List String) (rootPath : String)
    (fsRead : String → Except String String) (fsStat : String → StatOutcome)
    (now : Nat) : List (String × String) :=
  (relativeFilePaths.foldl (readFilesStep fsRead fsStat now rootPath)
    ([], FileCache.init 500 600000)).1

/-- The cache-coherence invariant threading the optimized reader's fold on an
unchanged filesystem: a positive TTL, and every cached entry stores exactly
the content the read oracle yields for its key, stamped at the current
instant, with a stored mtime at least the stat oracle's; moreover an entry
only ever gets inserted after a successful stat of its key (both insertion
sites — `get`'s miss path and `readFileWithCache`'s fallback — stat first). -/
def cacheAgrees (fsRead : String → Except String String) (fsStat : String → StatOutcome)
    (now : Nat) (st : FileCache) : Prop :=
  0 < st.ttl ∧
  ∀ k e, (k, e) ∈ st.cache →
    fsRead k = Except.ok e.content ∧ e.timestamp = now ∧
    (∀ m sz, fsStat k = StatOutcome.ok m sz → m ≤ e.mtime) ∧
    ∃ m sz, fsStat k = StatOutcome.ok m sz

/-- `a.or b` on options, by the first argument's constructor (used to state
what a fold step leaves at a key). -/
def optionOr {α : Type} : Option α → Option α → Option α
  | some a, _ => some a
  | none, b => b

/-- The outcome the optimized reader's per-path task has on an unchanged
filesystem: the file's content when both its read and its stat succeed,
nothing otherwise (either failure makes the task throw, and the path is
skipped). -/
def readOutcome (fsRead : String → Except String String) (fsStat : String → StatOutcome)
    (absolutePath : String) : Option String :=
  match fsRead absolutePath, fsStat absolutePath with
  | Except.ok content, StatOutcome.ok _ _ => some content
  | _, _ => none

example : readFilesOptimized ["a.txt", "b.txt", "a.txt"] ""
    (fun p => if p = "a.txt" then Except.ok "A" else Except.error "ENOENT")
    (fun p => if p = "a.txt" then StatOutcome.ok 3 1 else StatOutcome.fail) 0 =
    [("a.txt", "A")] := by decide

/-! ## Auxiliary definitions used by the claim statements -/

/-- The first non-empty segment of a path, after separator normalization —
what `pathParts[0]` denotes in `shouldIgnore` (`""` when there is none). -/
def firstPart (relativePath : String) : String :=
  (pathPartsOf (normalizeSep relativePath)).headD ""

/-- A real directory-entry name: non-empty and without `'/'` (every name
`fs.readdir` can return satisfies this). -/
def validName (name : String) : Bool :=
  name ≠ "" && !(name.data.contains '/')

mutual
/-- All entry names in the subtree are real directory-entry names. -/
def FSEntry.wf : FSEntry → Bool
  | FSEntry.file name => validName name
  | FSEntry.dir name children => validName name && FSList.wf children
/-- All entry names in the forest are real directory-entry names. -/
def FSList.wf : FSList → Bool
  | FSList.nil => true
  | FSList.cons e rest => FSEntry.wf e && FSList.wf rest
end

/-- A relative path that survived the traversal together with all of its
ancestors: neither the path itself nor any slash-delimited prefix of it is
ignored. -/
def pathOk (options : FilterOptions) (p : String) : Prop :=
  shouldIgnore p options = false ∧
  ∀ q r : String, p = q ++ "/" ++ r → shouldIgnore q options = false

/-- The invariant on the relative path of the directory currently being
walked: it is the root (`""`) or itself a surviving path. -/
def preOk (options : FilterOptions) (pre : String) : Prop :=
  pre = "" ∨ pathOk options pre

/-- A concrete cache entry used by witnesses. -/
def sampleEntry : CacheEntry :=
  { content := "x", timestamp := 0, mtime := 0, size := 1 }

/-- A concrete one-entry cache used by the C6 witness. -/
def c6State : FileCache :=
  { FileCache.init 3 100 with cache := [("f", sampleEntry)], sizeStat := 1, bytesStored := 1 }

/-- The stale entry of the C7 scenario (stored mtime 5). -/
def c7Entry : CacheEntry :=
  { content := "old", timestamp := 0, mtime := 5, size := 3 }

/-- A concrete cache holding `c7Entry`, fresh by TTL, used for C7. -/
def c7State : FileCache :=
  { FileCache.init 500 600000 with cache := [("f", c7Entry)], sizeStat := 1, bytesStored := 3 }

/-! ## General lemmas -/

theorem lookupMap_nil {α : Type} (k : String) : lookupMap ([] : List (String × α)) k = none := rfl

theorem lookupMap_mapSet_self {α : Type} (m : List (String × α)) (k : String) (v : α) :
    lookupMap (mapSet m k v) k = some v := by
  induction m with
  | nil => simp [mapSet, lookupMap]
  | cons hd tl ih =>
    obtain ⟨k', v'⟩ := hd
    by_cases h : k' = k
    · subst h
      simp [mapSet, lookupMap]
    · simp [mapSet, lookupMap, h, ih]

theorem lookupMap_mapSet_ne {α : Type} (m : List (String × α)) (k k' : String) (v : α)
    (h : k' ≠ k) : lookupMap (mapSet m k v) k' = lookupMap m k' := by
  have h' : k ≠ k' := Ne.symm h
  induction m with
  | nil => simp [mapSet, lookupMap, h']
  | cons hd tl ih =>
    obtain ⟨k0, v0⟩ := hd
    by_cases h0 : k0 = k
    · subst h0
      simp [mapSet, lookupMap, h']
    · simp only [mapSet, if_neg h0, lookupMap]
      by_cases h1 : k0 = k'
      · simp [h1]
      · simp [h1, ih]

/-! ## Claim C8 — the concurrency bound of the batch processor -/

theorem processQueue_running_le (st : BatchProcessor) (h : st.running ≤ st.concurrency) :
    st.processQueue.running ≤ st.concurrency := by
  unfold BatchProcessor.processQueue
  split
  · exact h
  · split
    · exact h
    · simp only []
      omega

theorem processQueue_concurrency (st : BatchProcessor) :
    st.processQueue.concurrency = st.concurrency := by
  unfold BatchProcessor.processQueue
  split
  · rfl
  · split <;> rfl

theorem step_running_le (st : BatchProcessor) (e : BatchEvent) (h : st.running ≤ st.concurrency) :
    (st.step e).running ≤ (st.step e).concurrency ∧ (st.step e).concurrency = st.concurrency := by
  cases e with
  | add id =>
    refine ⟨?_, processQueue_concurrency _⟩
    rw [BatchProcessor.step, processQueue_concurrency]
    exact processQueue_running_le _ h
  | settle =>
    rw [BatchProcessor.step]
    split
    · exact ⟨h, rfl⟩
    · refine ⟨?_, processQueue_concurrency _⟩
      rw [processQueue_concurrency]
      exact processQueue_running_le _ (by simp only []; omega)

theorem foldl_step_running_le (events : List BatchEvent) :
    ∀ (st : BatchProcessor), st.running ≤ st.concurrency →
      (events.foldl BatchProcessor.step st).running ≤ (events.foldl BatchProcessor.step st).concurrency ∧
      (events.foldl BatchProcessor.step st).concurrency = st.concurrency := by
  induction events with
  | nil => exact fun st h => ⟨h, rfl⟩
  | cons e rest ih =>
    intro st h
    rw [List.foldl_cons]
    obtain ⟨h1, h2⟩ := step_running_le st e h
    obtain ⟨h3, h4⟩ := ih (st.step e) h1
    exact ⟨h3, h4.trans h2⟩

/-- Claim C8: for every concurrency limit and every sequence of event-loop
events (task additions and task settlements), the limiter's `running` counter
— the number of started-but-not-settled tasks — never exceeds the configured
concurrency; in particular at no instant of a run with limit 2 over 10 tasks
are more than 2 tasks in flight. -/
theorem c8_running_never_exceeds_concurrency (concurrency : Nat) (events : List BatchEvent) :
    (BatchProcessor.runEvents concurrency events).running ≤ concurrency := by
  obtain ⟨h1, h2⟩ := foldl_step_running_le events (BatchProcessor.init concurrency) (by simp [BatchProcessor.init])
  rw [BatchProcessor.runEvents]
  calc (List.foldl BatchProcessor.step (BatchProcessor.init concurrency) events).running
      ≤ (List.foldl BatchProcessor.step (BatchProcessor.init concurrency) events).concurrency := h1
    _ = concurrency := h2

/-! ## Claim C1 — the default-options listing scenario -/

/-- Claim C1, counterexample: on the scenario root (`a.bin`,
`node_modules/x.js`, `src/main.js`, `.git/HEAD`) with default options, `List`
returns `["a.bin", "src/main.js"]`, not the claimed `["src/main.js"]` —
`.bin` is not a member of the code's `BINARY_EXTENSIONS` set, so `a.bin`
survives every rule. -/
theorem c1_counterexample :
    listFiles scenarioTree true true [] none = ["a.bin", "src/main.js"] ∧
    listFiles scenarioTree true true [] none ≠ ["src/main.js"] := by
  constructor
  · decide
  · decide

/-- Claim C1 as amended: with a root whose binary-named file bears an
extension that is actually in `BINARY_EXTENSIONS` (`a.png` instead of
`a.bin`), `List` with default options returns exactly `["src/main.js"]`. -/
theorem c1_amended_scenario :
    listFiles scenarioTreePng true true [] none = ["src/main.js"] := by decide

/-! ## Claim C3 — disabling VCS exclusion is an absolute override -/

/-- Claim C3: with `ignoreGit = false`, `shouldIgnore` returns `false` for
every path whose first segment is `.git` — whatever the other options,
including `.git`'s membership in the default blacklist — and consequently the
VCS directory's immediate entry `.git/HEAD` appears in `List`'s result on the
scenario root. -/
theorem c3_vcs_override_absolute :
    (∀ (relativePath : String) (useGitignore : Bool) (customBlacklist : List String)
        (gitignoreInstance : Option (String → Bool)),
      firstPart relativePath = ".git" →
      shouldIgnore relativePath
        { useGitignore := useGitignore, ignoreGit := false,
          customBlacklist := customBlacklist, gitignoreInstance := gitignoreInstance } = false)
    ∧ ".git/HEAD" ∈ listFiles scenarioTree true false [] none := by
  constructor
  · intro relativePath useGitignore customBlacklist gitignoreInstance h
    rw [firstPart] at h
    rw [shouldIgnore]
    simp only [h]
    rfl
  · decide

/-- Witness for C3: even with `.git` on the custom blacklist and a gitignore
matcher that matches everything, `ignoreGit = false` keeps `.git/config`
unignored. -/
theorem c3_witness :
    shouldIgnore ".git/config"
      { useGitignore := true, ignoreGit := false,
        customBlacklist := [".git"], gitignoreInstance := some (fun _ => true) } = false :=
  c3_vcs_override_absolute.1 ".git/config" true [".git"] (some (fun _ => true)) (by decide)

/-! ## Claim C4 — when the binary-extension rule fires -/

/-- Claim C4, counterexample: `.git/a.png` has a lowercased extension in
`BINARY_EXTENSIONS`, yet with VCS exclusion disabled `shouldIgnore` returns
`false` — the `.git` override returns before the binary-extension check is
ever reached, so the check does NOT fire regardless of the other options. -/
theorem c4_counterexample :
    BINARY_EXTENSIONS.contains (lowerAscii (extname (normalizeSep ".git/a.png"))) = true ∧
    shouldIgnore ".git/a.png"
      { useGitignore := true, ignoreGit := false,
        customBlacklist := [], gitignoreInstance := none } = false := by
  constructor
  · decide
  · decide

/-- Claim C4 as amended: for every relative path whose lowercased extension is
in the fixed binary-extension set, and every option combination in which the
path does not fall under the `.git` first-segment override with VCS exclusion
disabled (first segment not `.git`, or `ignoreGit = true`), `shouldIgnore`
returns `true`. -/
theorem c4_binary_extension_fires (relativePath : String) (options : FilterOptions)
    (hext : BINARY_EXTENSIONS.contains (lowerAscii (extname (normalizeSep relativePath))) = true)
    (hgit : firstPart relativePath ≠ ".git" ∨ options.ignoreGit = true) :
    shouldIgnore relativePath options = true := by
  rw [shouldIgnore]
  by_cases h1 : (pathPartsOf (normalizeSep relativePath)).headD "" = ".git"
  · rcases hgit with h | h
    · exact absurd (by rw [firstPart]; exact h1) h
    · simp only [h1, if_true, h]
      rfl
  · simp only [h1, if_false, hext]
    split
    · rfl
    · split
      · rfl
      · split
        · rfl
        · simp [hext]

/-- Witness for C4: an uppercase binary extension outside `.git` is ignored
under defaults. -/
theorem c4_witness :
    shouldIgnore "assets/photo.PNG"
      { useGitignore := true, ignoreGit := true,
        customBlacklist := [], gitignoreInstance := none } = true :=
  c4_binary_extension_fires "assets/photo.PNG" _ (by decide) (Or.inl (by decide))

/-! ## Claim C6 — stat failure during validation is absorbed as a hit -/

/-- Claim C6: on `get` of a present, TTL-fresh entry, a failing `fs.stat`
is absorbed: the cached content is returned, the hit counter is incremented,
and nothing else in the state changes — `get` neither fails nor treats the
entry as stale. -/
theorem c6_stat_failure_served_as_hit (st : FileCache) (filePath : String) (now : Nat)
    (cacheEntry : CacheEntry) (readResult : Except String String)
    (hmem : lookupMap st.cache (generateKey filePath) = some cacheEntry)
    (hfresh : now - cacheEntry.timestamp < st.ttl) :
    st.get filePath now StatOutcome.fail readResult =
      (Except.ok cacheEntry.content, { st with hits := st.hits + 1 }) := by
  rw [FileCache.get]
  simp only [hmem, hfresh, if_true]

/-- Witness for C6: the concrete one-entry cache `c6State`, a fresh read
instant and a failing stat. -/
theorem c6_witness :
    FileCache.get c6State "f" 5 StatOutcome.fail (Except.error "EBUSY") =
      (Except.ok sampleEntry.content, { c6State with hits := c6State.hits + 1 }) :=
  c6_stat_failure_served_as_hit c6State "f" 5 sampleEntry (Except.error "EBUSY")
    (by decide) (by decide)

/-! ## Claim C7 — what `get` does on an mtime-stale entry -/

/-- Claim C7, counterexample: on a present, TTL-fresh entry whose underlying
mtime advanced (stored 5, stat 10), `get` does NOT stop at removing the stale
entry: it re-reads the file itself, stores the fresh content back into the
cache, and returns it (alongside counting the miss). -/
theorem c7_counterexample :
    (FileCache.get c7State "f" 1 (StatOutcome.ok 10 100) (Except.ok "new")).1 = Except.ok "new" ∧
    lookupMap (FileCache.get c7State "f" 1 (StatOutcome.ok 10 100) (Except.ok "new")).2.cache "f" =
      some { content := "new", timestamp := 1, mtime := 10, size := 3 } ∧
    (FileCache.get c7State "f" 1 (StatOutcome.ok 10 100) (Except.ok "new")).2.misses = 1 := by
  refine ⟨rfl, by decide, by decide⟩

/-- Claim C7 as amended: on a `get` of a present, TTL-fresh entry whose
underlying file's modification time has advanced past the stored mtime, the
cache treats it as a miss, deletes the stale entry (counting an eviction),
and — rather than leaving the re-read to the caller — itself re-reads the
file, inserts the fresh content via `set`, and returns the fresh content. -/
theorem c7_stale_mtime_refetches (st : FileCache) (filePath : String) (now : Nat)
    (cacheEntry : CacheEntry) (m : Int) (sz : Nat) (content : String)
    (hmem : lookupMap st.cache (generateKey filePath) = some cacheEntry)
    (hfresh : now - cacheEntry.timestamp < st.ttl)
    (hstale : cacheEntry.mtime < m) :
    st.get filePath now (StatOutcome.ok m sz) (Except.ok content) =
      (Except.ok content,
       FileCache.set
         { st with cache := mapDelete st.cache (generateKey filePath),
                   evictions := st.evictions + 1,
                   sizeStat := (mapDelete st.cache (generateKey filePath)).length,
                   bytesStored := st.bytesStored - cacheEntry.content.length,
                   misses := st.misses + 1 }
         (generateKey filePath)
         { content := content, timestamp := now, mtime := m, size := content.length }) := by
  have hm : ¬ m ≤ cacheEntry.mtime := by omega
  rw [FileCache.get]
  simp only [hmem, hfresh, if_true, hm, if_false]
  rw [FileCache.readMiss, FileCache.expireEntry]

/-- Witness for C7's amended theorem: the concrete `c7State` scenario. -/
theorem c7_witness :
    FileCache.get c7State "f" 1 (StatOutcome.ok 10 100) (Except.ok "new") =
      (Except.ok "new",
       FileCache.set
         { c7State with cache := mapDelete c7State.cache (generateKey "f"),
                        evictions := c7State.evictions + 1,
                        sizeStat := (mapDelete c7State.cache (generateKey "f")).length,
                        bytesStored := c7State.bytesStored - c7Entry.content.length,
                        misses := c7State.misses + 1 }
         (generateKey "f")
         { content := "new", timestamp := 1, mtime := 10, size := "new".length }) :=
  c7_stale_mtime_refetches c7State "f" 1 c7Entry 10 100 "new" (by decide) (by decide) (by decide)

/-! ## Claim C9 — `ReadMany` absorbs individual read failures -/

theorem readFiles_lookup_aux (rootPath : String) (fsRead : String → Except String String) :
    ∀ (paths : List String) (acc : List (String × String)) (rel : String),
      lookupMap
        (paths.foldl
          (fun fileContents relativeFilePath =>
            match fsRead (pathJoin rootPath relativeFilePath) with
            | Except.ok content => mapSet fileContents relativeFilePath content
            | Except.error _ => fileContents)
          acc) rel =
      (if rel ∈ paths then
        match fsRead (pathJoin rootPath rel) with
        | Except.ok content => some content
        | Except.error _ => lookupMap acc rel
      else lookupMap acc rel) := by
  intro paths
  induction paths with
  | nil => intro acc rel; simp
  | cons p rest ih =>
    intro acc rel
    rw [List.foldl_cons, ih]
    by_cases hp : rel = p
    · subst hp
      simp only [List.mem_cons, true_or, if_true]
      cases hread : fsRead (pathJoin rootPath rel) with
      | ok content =>
        by_cases hr : rel ∈ rest
        · simp [hr, hread]
        · simp only [hr, if_false, hread, lookupMap_mapSet_self]
      | error e =>
        by_cases hr : rel ∈ rest
        · simp [hr, hread]
        · simp [hr, hread]
    · have hstep :
          lookupMap
            (match fsRead (pathJoin rootPath p) with
             | Except.ok content => mapSet acc p content
             | Except.error _ => acc) rel = lookupMap acc rel := by
        cases fsRead (pathJoin rootPath p) with
        | ok content => exact lookupMap_mapSet_ne acc p rel content hp
        | error e => rfl
      simp only [List.mem_cons, hp, false_or]
      by_cases hr : rel ∈ rest
      · simp only [hr, if_true]
        cases hread : fsRead (pathJoin rootPath rel) with
        | ok c => rfl
        | error e => exact hstep
      · simp only [hr, if_false]
        exact hstep

/-! ## Characterization lemmas for `FileCache.get` -/

theorem get_absent (st : FileCache) (filePath : String) (now : Nat)
    (stat : StatOutcome) (readResult : Except String String)
    (hl : lookupMap st.cache (generateKey filePath) = none) :
    st.get filePath now stat readResult =
      FileCache.readMiss st (generateKey filePath) filePath now stat readResult := by
  rw [FileCache.get, hl]

theorem get_fresh_statok_hit (st : FileCache) (filePath : String) (now : Nat)
    (m : Int) (sz : Nat) (readResult : Except String String) (cacheEntry : CacheEntry)
    (hl : lookupMap st.cache (generateKey filePath) = some cacheEntry)
    (hfresh : now - cacheEntry.timestamp < st.ttl)
    (hmt : m ≤ cacheEntry.mtime) :
    st.get filePath now (StatOutcome.ok m sz) readResult =
      (Except.ok cacheEntry.content, { st with hits := st.hits + 1 }) := by
  rw [FileCache.get, hl]
  simp only [hfresh, if_true, hmt]

theorem get_fresh_stale (st : FileCache) (filePath : String) (now : Nat)
    (m : Int) (sz : Nat) (readResult : Except String String) (cacheEntry : CacheEntry)
    (hl : lookupMap st.cache (generateKey filePath) = some cacheEntry)
    (hfresh : now - cacheEntry.timestamp < st.ttl)
    (hmt : ¬ m ≤ cacheEntry.mtime) :
    st.get filePath now (StatOutcome.ok m sz) readResult =
      FileCache.readMiss (st.expireEntry (generateKey filePath) cacheEntry)
        (generateKey filePath) filePath now (StatOutcome.ok m sz) readResult := by
  rw [FileCache.get, hl]
  simp only [hfresh, if_true, hmt, if_false]

theorem get_expired (st : FileCache) (filePath : String) (now : Nat)
    (stat : StatOutcome) (readResult : Except String String) (cacheEntry : CacheEntry)
    (hl : lookupMap st.cache (generateKey filePath) = some cacheEntry)
    (hfresh : ¬ now - cacheEntry.timestamp < st.ttl) :
    st.get filePath now stat readResult =
      FileCache.readMiss (st.expireEntry (generateKey filePath) cacheEntry)
        (generateKey filePath) filePath now stat readResult := by
  rw [FileCache.get, hl]
  simp only [hfresh, if_false]

/-! ## Claim C5 — capacity bound and insertion-order eviction -/

theorem mapSet_length_le {α : Type} (m : List (String × α)) (k : String) (v : α) :
    (mapSet m k v).length ≤ m.length + 1 := by
  induction m with
  | nil => simp [mapSet]
  | cons hd tl ih =>
    obtain ⟨k0, v0⟩ := hd
    by_cases h : k0 = k
    · simp [mapSet, h]
    · simp only [mapSet, if_neg h, List.length_cons]
      omega

theorem mapDelete_length_le {α : Type} (m : List (String × α)) (k : String) :
    (mapDelete m k).length ≤ m.length := by
  induction m with
  | nil => simp [mapDelete]
  | cons hd tl ih =>
    obtain ⟨k0, v0⟩ := hd
    by_cases h : k0 = k
    · simp only [mapDelete, if_pos h, List.length_cons]
      omega
    · simp only [mapDelete, if_neg h, List.length_cons]
      omega

theorem set_maxSize (st : FileCache) (k : String) (v : CacheEntry) :
    (st.set k v).maxSize = st.maxSize ∧ (st.set k v).ttl = st.ttl := by
  rw [FileCache.set]
  split
  · split <;> exact ⟨rfl, rfl⟩
  · exact ⟨rfl, rfl⟩

theorem set_length_le (st : FileCache) (k : String) (v : CacheEntry)
    (hmax : 1 ≤ st.maxSize) (h : st.cache.length ≤ st.maxSize) :
    (st.set k v).cache.length ≤ st.maxSize := by
  rw [FileCache.set]
  split
  · next hfull =>
    match hc : st.cache with
    | [] =>
      rw [hc] at hfull
      simp only [List.length_nil] at hfull
      omega
    | (k0, e0) :: rest =>
      simp only []
      have h1 : (mapSet rest k v).length ≤ rest.length + 1 := mapSet_length_le rest k v
      have h2 : rest.length + 1 = st.cache.length := by rw [hc]; simp
      omega
  · next hroom =>
    simp only []
    have h1 : (mapSet st.cache k v).length ≤ st.cache.length + 1 := mapSet_length_le st.cache k v
    omega

theorem readMiss_cache_le (st : FileCache) (key filePath : String) (now : Nat)
    (stat : StatOutcome) (readResult : Except String String)
    (hmax : 1 ≤ st.maxSize) (h : st.cache.length ≤ st.maxSize) :
    (FileCache.readMiss st key filePath now stat readResult).2.cache.length ≤ st.maxSize ∧
    (FileCache.readMiss st key filePath now stat readResult).2.maxSize = st.maxSize := by
  cases readResult with
  | ok content =>
    cases stat with
    | ok m sz =>
      exact ⟨set_length_le { st with misses := st.misses + 1 } key _ hmax h,
             (set_maxSize { st with misses := st.misses + 1 } key _).1⟩
    | fail => exact ⟨h, rfl⟩
  | error e => exact ⟨h, rfl⟩

theorem expireEntry_cache_le (st : FileCache) (key : String) (cacheEntry : CacheEntry)
    (h : st.cache.length ≤ st.maxSize) :
    (st.expireEntry key cacheEntry).cache.length ≤ st.maxSize ∧
    (st.expireEntry key cacheEntry).maxSize = st.maxSize := by
  constructor
  · exact le_trans (mapDelete_length_le st.cache key) h
  · rfl

theorem get_cache_le (st : FileCache) (filePath : String) (now : Nat)
    (stat : StatOutcome) (readResult : Except String String)
    (hmax : 1 ≤ st.maxSize) (h : st.cache.length ≤ st.maxSize) :
    (st.get filePath now stat readResult).2.cache.length ≤ st.maxSize ∧
    (st.get filePath now stat readResult).2.maxSize = st.maxSize := by
  cases hl : lookupMap st.cache (generateKey filePath) with
  | some cacheEntry =>
    by_cases hfresh : now - cacheEntry.timestamp < st.ttl
    · cases stat with
      | ok m sz =>
        by_cases hmt : m ≤ cacheEntry.mtime
        · rw [get_fresh_statok_hit st filePath now m sz readResult cacheEntry hl hfresh hmt]
          exact ⟨h, rfl⟩
        · rw [get_fresh_stale st filePath now m sz readResult cacheEntry hl hfresh hmt]
          have h1 := expireEntry_cache_le st (generateKey filePath) cacheEntry h
          have h2 := readMiss_cache_le (st.expireEntry (generateKey filePath) cacheEntry)
            (generateKey filePath) filePath now (StatOutcome.ok m sz) readResult
            (by rw [h1.2]; exact hmax) h1.1
          exact ⟨le_trans h2.1 (le_of_eq h1.2), h2.2.trans h1.2⟩
      | fail =>
        rw [FileCache.get, hl]
        simp only [hfresh, if_true]
        exact ⟨h, by trivial⟩
    · rw [get_expired st filePath now stat readResult cacheEntry hl hfresh]
      have h1 := expireEntry_cache_le st (generateKey filePath) cacheEntry h
      have h2 := readMiss_cache_le (st.expireEntry (generateKey filePath) cacheEntry)
        (generateKey filePath) filePath now stat readResult
        (by rw [h1.2]; exact hmax) h1.1
      exact ⟨le_trans h2.1 (le_of_eq h1.2), h2.2.trans h1.2⟩
  | none =>
    rw [get_absent st filePath now stat readResult hl]
    exact readMiss_cache_le st (generateKey filePath) filePath now stat readResult hmax h

theorem applyOp_inv (st : FileCache) (op : CacheOp)
    (hmax : 1 ≤ st.maxSize) (h : st.cache.length ≤ st.maxSize) :
    (applyOp st op).cache.length ≤ st.maxSize ∧ (applyOp st op).maxSize = st.maxSize := by
  cases op with
  | setOp key value =>
    exact ⟨set_length_le st key value hmax h, (set_maxSize st key value).1⟩
  | getOp filePath now stat readResult =>
    exact get_cache_le st filePath now stat readResult hmax h
  | invalidateOp filePath =>
    cases hl : lookupMap st.cache (generateKey filePath) with
    | some entry =>
      rw [applyOp, FileCache.invalidateKey, hl]
      exact ⟨le_trans (mapDelete_length_le st.cache (generateKey filePath)) h, rfl⟩
    | none =>
      rw [applyOp, FileCache.invalidateKey, hl]
      exact ⟨h, rfl⟩
  | clearOp =>
    exact ⟨Nat.zero_le _, rfl⟩

theorem foldl_applyOp_inv (ops : List CacheOp) :
    ∀ st : FileCache, 1 ≤ st.maxSize → st.cache.length ≤ st.maxSize →
      (ops.foldl applyOp st).cache.length ≤ (ops.foldl applyOp st).maxSize ∧
      (ops.foldl applyOp st).maxSize = st.maxSize := by
  induction ops with
  | nil => exact fun st _ h2 => ⟨h2, rfl⟩
  | cons op rest ih =>
    intro st h1 h2
    rw [List.foldl_cons]
    obtain ⟨ha, hb⟩ := applyOp_inv st op h1 h2
    obtain ⟨hc, hd⟩ := ih (applyOp st op) (by rw [hb]; exact h1) (by rw [hb]; exact ha)
    exact ⟨hc, hd.trans hb⟩

theorem mapSet_append {α : Type} (m : List (String × α)) (k : String) (v : α)
    (h : lookupMap m k = none) : mapSet m k v = m ++ [(k, v)] := by
  induction m with
  | nil => rfl
  | cons hd tl ih =>
    obtain ⟨k0, v0⟩ := hd
    rw [lookupMap] at h
    by_cases h0 : k0 = k
    · rw [if_pos h0] at h
      exact absurd h (by simp)
    · rw [if_neg h0] at h
      rw [mapSet, if_neg h0, ih h, List.cons_append]

theorem lookupMap_append_none {α : Type} (m : List (String × α)) (k k' : String) (v : α)
    (h : lookupMap m k' = none) (hne : k ≠ k') :
    lookupMap (m ++ [(k, v)]) k' = none := by
  induction m with
  | nil => simp [lookupMap, hne]
  | cons hd tl ih =>
    obtain ⟨k0, v0⟩ := hd
    rw [lookupMap] at h
    by_cases h0 : k0 = k'
    · rw [if_pos h0] at h
      exact absurd h (by simp)
    · rw [if_neg h0] at h
      rw [List.cons_append, lookupMap, if_neg h0]
      exact ih h

theorem set_fresh (st : FileCache) (k : String) (v : CacheEntry)
    (hnone : lookupMap st.cache k = none) (hroom : st.cache.length < st.maxSize) :
    (st.set k v).cache = st.cache ++ [(k, v)] ∧
    (st.set k v).evictions = st.evictions ∧
    (st.set k v).maxSize = st.maxSize := by
  rw [FileCache.set, if_neg (by omega)]
  exact ⟨mapSet_append st.cache k v hnone, rfl, rfl⟩

theorem set_evict (st : FileCache) (k : String) (v : CacheEntry)
    (k0 : String) (e0 : CacheEntry) (rest : List (String × CacheEntry))
    (hc : st.cache = (k0, e0) :: rest)
    (hfull : st.maxSize ≤ st.cache.length)
    (hnone : lookupMap rest k = none) :
    (st.set k v).cache = rest ++ [(k, v)] ∧
    (st.set k v).evictions = st.evictions + 1 := by
  rw [FileCache.set, if_pos hfull, hc]
  exact ⟨mapSet_append rest k v hnone, rfl⟩

theorem lookupMap_map_pair_none (v : String → CacheEntry) (ks : List String) (k : String)
    (h : k ∉ ks) : lookupMap (ks.map (fun k' => (k', v k'))) k = none := by
  induction ks with
  | nil => rfl
  | cons k0 rest ih =>
    have hne : k0 ≠ k :=
      fun hk => h (by rw [← hk]; exact List.mem_cons_self k0 rest)
    rw [List.map_cons, lookupMap, if_neg hne]
    exact ih (fun hk => h (List.mem_cons_of_mem k0 hk))

theorem setMany_fresh (v : String → CacheEntry) :
    ∀ (ks : List String) (st : FileCache),
      (∀ k ∈ ks, lookupMap st.cache k = none) →
      ks.Nodup →
      st.cache.length + ks.length ≤ st.maxSize →
      (ks.foldl (fun s k => s.set k (v k)) st).cache =
        st.cache ++ ks.map (fun k => (k, v k)) ∧
      (ks.foldl (fun s k => s.set k (v k)) st).evictions = st.evictions ∧
      (ks.foldl (fun s k => s.set k (v k)) st).maxSize = st.maxSize := by
  intro ks
  induction ks with
  | nil => exact fun st _ _ _ => ⟨by simp, rfl, rfl⟩
  | cons k rest ih =>
    intro st hnone hnd hlen
    rw [List.foldl_cons]
    have hklen : st.cache.length < st.maxSize := by
      rw [List.length_cons] at hlen
      omega
    obtain ⟨hc, he, hm⟩ := set_fresh st k (v k) (hnone k (List.mem_cons_self k rest)) hklen
    have hnone' : ∀ k' ∈ rest, lookupMap (st.set k (v k)).cache k' = none := by
      intro k' hk'
      rw [hc]
      refine lookupMap_append_none st.cache k k' (v k) (hnone k' (List.mem_cons_of_mem k hk')) ?_
      intro hkk
      exact (List.nodup_cons.mp hnd).1 (hkk ▸ hk')
    have hlen' : (st.set k (v k)).cache.length + rest.length ≤ (st.set k (v k)).maxSize := by
      rw [hc, hm, List.length_append, List.length_singleton]
      rw [List.length_cons] at hlen
      omega
    obtain ⟨hc', he', hm'⟩ := ih (st.set k (v k)) hnone' (List.nodup_cons.mp hnd).2 hlen'
    refine ⟨?_, he'.trans he, hm'.trans hm⟩
    rw [hc', hc, List.map_cons, List.append_assoc, List.singleton_append]

theorem map_fst_map_pair (v : String → CacheEntry) (ks : List String) :
    (ks.map (fun k => (k, v k))).map Prod.fst = ks := by
  induction ks with
  | nil => rfl
  | cons k rest ih => rw [List.map_cons, List.map_cons, ih]

/-- Claim C5: (a) starting from a freshly constructed cache, after any
sequence of cache operations (`set`, `get`, `invalidate`, `clear`) the map
never holds more than `maxSize` entries; (b) inserting `maxSize + 1` distinct
keys via `set` evicts exactly one entry, namely the first-inserted key: the
final keys are the inserted keys minus the first, in insertion order, and the
eviction counter is exactly 1 (insertion-order eviction, not access recency). -/
theorem c5_capacity_and_insertion_order (m ttl : Nat) (hm : 1 ≤ m) :
    (∀ ops : List CacheOp,
      (ops.foldl applyOp (FileCache.init m ttl)).cache.length ≤ m)
    ∧ (∀ (ks : List String) (v : String → CacheEntry), ks.Nodup → ks.length = m + 1 →
        (ks.foldl (fun st k => st.set k (v k)) (FileCache.init m ttl)).cache.map Prod.fst =
          ks.drop 1 ∧
        (ks.foldl (fun st k => st.set k (v k)) (FileCache.init m ttl)).evictions = 1) := by
  constructor
  · intro ops
    obtain ⟨h1, h2⟩ := foldl_applyOp_inv ops (FileCache.init m ttl) hm (Nat.zero_le _)
    rw [h2] at h1
    exact h1
  · intro ks v hnd hlen
    rcases List.eq_nil_or_concat ks with rfl | ⟨ks', last, rfl⟩
    · simp at hlen
    · rw [List.concat_eq_append] at hnd hlen ⊢
      have hlen' : ks'.length = m := by
        rw [List.length_append, List.length_singleton] at hlen
        omega
      have hnd' : ks'.Nodup := hnd.of_append_left
      have hlast : last ∉ ks' := by
        intro hmem
        have := List.disjoint_of_nodup_append hnd hmem
        simp at this
      obtain ⟨hA1, hA2, hA3⟩ := setMany_fresh v ks' (FileCache.init m ttl)
        (fun k _ => rfl) hnd' (by simp [FileCache.init, hlen'])
      cases ks' with
      | nil =>
        rw [List.length_nil] at hlen'
        omega
      | cons k0 ktail =>
        rw [List.foldl_append, List.foldl_cons, List.foldl_nil]
        have hlast' : last ∉ ktail := fun hmem => hlast (List.mem_cons_of_mem k0 hmem)
        have hc :
            ((k0 :: ktail).foldl (fun s k => s.set k (v k)) (FileCache.init m ttl)).cache =
              (k0, v k0) :: ktail.map (fun k => (k, v k)) := by
          rw [hA1]
          show [] ++ _ = _
          rw [List.nil_append, List.map_cons]
        have hfull :
            ((k0 :: ktail).foldl (fun s k => s.set k (v k)) (FileCache.init m ttl)).maxSize ≤
            ((k0 :: ktail).foldl (fun s k => s.set k (v k)) (FileCache.init m ttl)).cache.length := by
          rw [hc, hA3]
          show m ≤ ((k0, v k0) :: ktail.map (fun k => (k, v k))).length
          rw [List.length_cons, List.length_map]
          rw [List.length_cons] at hlen'
          omega
        obtain ⟨hE1, hE2⟩ := set_evict _ last (v last) k0 (v k0)
          (ktail.map (fun k => (k, v k))) hc hfull
          (lookupMap_map_pair_none v ktail last hlast')
        constructor
        · rw [hE1, List.map_append, map_fst_map_pair]
          rw [List.cons_append, List.drop_succ_cons, List.drop_zero]
          rfl
        · rw [hE2, hA2]
          rfl

/-- Witness for C5: a capacity-2 cache under a concrete operation sequence,
and three distinct keys inserted into it ("a" is evicted, "b","c" remain). -/
theorem c5_witness :
    ((([CacheOp.setOp "a" sampleEntry,
        CacheOp.getOp "a" 0 StatOutcome.fail (Except.error "e"),
        CacheOp.setOp "b" sampleEntry,
        CacheOp.setOp "c" sampleEntry]).foldl applyOp
        (FileCache.init 2 9)).cache.length ≤ 2)
    ∧ ((["a", "b", "c"].foldl (fun st k => st.set k ((fun _ => sampleEntry) k))
          (FileCache.init 2 9)).cache.map Prod.fst = ["a", "b", "c"].drop 1 ∧
       (["a", "b", "c"].foldl (fun st k => st.set k ((fun _ => sampleEntry) k))
          (FileCache.init 2 9)).evictions = 1) :=
  ⟨(c5_capacity_and_insertion_order 2 9 (by decide)).1 _,
   (c5_capacity_and_insertion_order 2 9 (by decide)).2 ["a", "b", "c"]
     (fun _ => sampleEntry) (by decide) (by decide)⟩

/-! ## Claim C2 — an ignored directory prunes its whole subtree -/

theorem no_slash_append (n q r : String) (hn : '/' ∉ n.data) : n ≠ q ++ "/" ++ r := by
  intro h
  apply hn
  have hd : n.data = (q.data ++ ['/']) ++ r.data := by
    rw [h, String.data_append, String.data_append]
  rw [hd]
  simp

theorem char_split (l2 : List Char) (h2 : '/' ∉ l2) :
    ∀ (l1 m1 m2 : List Char), l1 ++ '/' :: l2 = m1 ++ '/' :: m2 →
      (m1 = l1 ∧ m2 = l2) ∨ ∃ k, l1 = m1 ++ '/' :: k ∧ m2 = k ++ '/' :: l2 := by
  intro l1
  induction l1 with
  | nil =>
    intro m1 m2 h
    cases m1 with
    | nil =>
      left
      rw [List.nil_append, List.nil_append] at h
      injection h with _ h2'
      exact ⟨rfl, h2'.symm⟩
    | cons c m1' =>
      rw [List.nil_append, List.cons_append] at h
      injection h with h1 h2'
      exfalso
      apply h2
      rw [h2']
      exact List.mem_append.mpr (Or.inr (List.mem_cons_self _ _))
  | cons a l1' ih =>
    intro m1 m2 h
    cases m1 with
    | nil =>
      rw [List.cons_append, List.nil_append] at h
      injection h with h1 h2'
      right
      refine ⟨l1', ?_, h2'.symm⟩
      rw [List.nil_append, h1]
    | cons b m1' =>
      rw [List.cons_append, List.cons_append] at h
      injection h with h1 h2'
      rcases ih m1' m2 h2' with ⟨hm, hm2⟩ | ⟨k, hk1, hk2⟩
      · left
        exact ⟨by rw [hm, h1], hm2⟩
      · right
        exact ⟨k, by rw [List.cons_append, ← hk1, h1], hk2⟩

theorem string_split (pre n q r : String) (hn : '/' ∉ n.data)
    (h : pre ++ "/" ++ n = q ++ "/" ++ r) :
    (q = pre ∧ r = n) ∨ ∃ r' : String, pre = q ++ "/" ++ r' ∧ r = r' ++ "/" ++ n := by
  have hd : pre.data ++ '/' :: n.data = q.data ++ '/' :: r.data := by
    have hc := congrArg String.data h
    rw [String.data_append, String.data_append, String.data_append, String.data_append] at hc
    simpa using hc
  rcases char_split n.data hn pre.data q.data r.data hd with ⟨h1, h2⟩ | ⟨k, hk1, hk2⟩
  · left
    exact ⟨String.ext h1, String.ext h2⟩
  · right
    refine ⟨String.mk k, String.ext ?_, String.ext ?_⟩
    · rw [hk1, String.data_append, String.data_append]
      simp
    · rw [hk2, String.data_append, String.data_append]
      simp

theorem validName_parts (name : String) (h : validName name = true) :
    name ≠ "" ∧ '/' ∉ name.data := by
  rw [validName, Bool.and_eq_true] at h
  obtain ⟨h1, h2⟩ := h
  refine ⟨by simpa using h1, ?_⟩
  simpa using h2

theorem pathOk_relJoin (options : FilterOptions) (pre name : String)
    (hpre : preOk options pre) (hname : validName name = true)
    (hig : shouldIgnore (relJoin pre name) options = false) :
    pathOk options (relJoin pre name) := by
  obtain ⟨hn1, hslash⟩ := validName_parts name hname
  constructor
  · exact hig
  · intro q r heq
    by_cases hp : pre = ""
    · rw [relJoin, if_pos hp] at heq
      exact absurd heq (no_slash_append name q r hslash)
    · rw [relJoin, if_neg hp] at heq
      rcases string_split pre name q r hslash heq with ⟨hq, _⟩ | ⟨r', hk1, _⟩
      · rcases hpre with h0 | hOk
        · exact absurd h0 hp
        · rw [hq]
          exact hOk.1
      · rcases hpre with h0 | hOk
        · exact absurd h0 hp
        · exact hOk.2 q r' hk1

mutual
theorem listFilesRecursive_pathOk (options : FilterOptions) (es : FSList) (pre : String)
    (hpre : preOk options pre) (hwf : FSList.wf es = true) :
    ∀ p ∈ listFilesRecursive options es pre, pathOk options p := by
  cases es with
  | nil =>
    intro p hp
    rw [listFilesRecursive] at hp
    exact absurd hp (List.not_mem_nil p)
  | cons e rest =>
    rw [FSList.wf, Bool.and_eq_true] at hwf
    intro p hp
    rw [listFilesRecursive] at hp
    rcases List.mem_append.mp hp with h | h
    · exact listEntry_pathOk options e pre hpre hwf.1 p h
    · exact listFilesRecursive_pathOk options rest pre hpre hwf.2 p h

theorem listEntry_pathOk (options : FilterOptions) (e : FSEntry) (pre : String)
    (hpre : preOk options pre) (hwf : FSEntry.wf e = true) :
    ∀ p ∈ listEntry options e pre, pathOk options p := by
  cases e with
  | file name =>
    rw [FSEntry.wf] at hwf
    intro p hp
    rw [listEntry] at hp
    by_cases hig : shouldIgnore (relJoin pre name) options = true
    · rw [if_pos hig] at hp
      exact absurd hp (List.not_mem_nil p)
    · rw [if_neg hig] at hp
      rw [Bool.not_eq_true] at hig
      rcases List.mem_singleton.mp hp with rfl
      exact pathOk_relJoin options pre name hpre hwf hig
  | dir name children =>
    rw [FSEntry.wf, Bool.and_eq_true] at hwf
    intro p hp
    rw [listEntry] at hp
    by_cases hig : shouldIgnore (relJoin pre name) options = true
    · rw [if_pos hig] at hp
      exact absurd hp (List.not_mem_nil p)
    · rw [if_neg hig] at hp
      rw [Bool.not_eq_true] at hig
      exact listFilesRecursive_pathOk options children (relJoin pre name)
        (Or.inr (pathOk_relJoin options pre name hpre hwf.1 hig)) hwf.2 p hp
end

/-- Claim C2: for every ignore-rule configuration and every (well-formed)
filesystem tree, if a directory's relative path `d` is matched by the rules
(`shouldIgnore d = true`), then no path of `List`'s result is `d` itself or
lies below `d` — the whole subtree is pruned, even when a descendant taken on
its own would not match any rule. -/
theorem c2_ignored_directory_prunes_subtree
    (useGitignore ignoreGit : Bool) (customBlacklist : List String)
    (loadedGitignore : Option (String → Bool)) (tree : FSList) (d p : String)
    (hwf : FSList.wf tree = true)
    (hd : shouldIgnore d (listFilesOptions useGitignore ignoreGit customBlacklist loadedGitignore) = true)
    (hp : p ∈ listFiles tree useGitignore ignoreGit customBlacklist loadedGitignore) :
    ¬ (p = d ∨ ∃ r : String, p = d ++ "/" ++ r) := by
  rw [listFiles] at hp
  have hOk := listFilesRecursive_pathOk
    (listFilesOptions useGitignore ignoreGit customBlacklist loadedGitignore)
    tree "" (Or.inl rfl) hwf p hp
  intro hcase
  rcases hcase with rfl | ⟨r, hr⟩
  · rw [hOk.1] at hd
    exact Bool.false_ne_true hd
  · rw [hOk.2 d r hr] at hd
    exact Bool.false_ne_true hd

/-- Witness for C2: in the default-options scenario, `node_modules` is
ignored, and the listed path `src/main.js` is neither `node_modules` nor
below it. -/
theorem c2_witness :
    ¬ ("src/main.js" = "node_modules" ∨
       ∃ r : String, "src/main.js" = "node_modules" ++ "/" ++ r) :=
  c2_ignored_directory_prunes_subtree true true [] none scenarioTree
    "node_modules" "src/main.js" (by decide) (by decide) (by decide)

/-! ## Claim C10 — the optimized reader refines the naive reader -/

theorem lookupMap_mem {α : Type} (m : List (String × α)) (k : String) (v : α)
    (h : lookupMap m k = some v) : (k, v) ∈ m := by
  induction m with
  | nil => exact absurd h (by simp [lookupMap])
  | cons hd tl ih =>
    obtain ⟨k0, v0⟩ := hd
    rw [lookupMap] at h
    by_cases h0 : k0 = k
    · rw [if_pos h0] at h
      injection h with h'
      rw [← h0, ← h']
      exact List.mem_cons_self _ _
    · rw [if_neg h0] at h
      exact List.mem_cons_of_mem _ (ih h)

theorem mem_mapSet {α : Type} (m : List (String × α)) (k : String) (v : α)
    (x : String × α) (hx : x ∈ mapSet m k v) : x ∈ m ∨ x = (k, v) := by
  induction m with
  | nil =>
    rw [mapSet] at hx
    exact Or.inr (List.mem_singleton.mp hx)
  | cons hd tl ih =>
    obtain ⟨k0, v0⟩ := hd
    rw [mapSet] at hx
    by_cases h0 : k0 = k
    · rw [if_pos h0] at hx
      rcases List.mem_cons.mp hx with h | h
      · exact Or.inr h
      · exact Or.inl (List.mem_cons_of_mem _ h)
    · rw [if_neg h0] at hx
      rcases List.mem_cons.mp hx with h | h
      · exact Or.inl (h ▸ List.mem_cons_self _ _)
      · rcases ih h with h' | h'
        · exact Or.inl (List.mem_cons_of_mem _ h')
        · exact Or.inr h'

theorem mem_set_cache (st : FileCache) (k : String) (v : CacheEntry)
    (x : String × CacheEntry) (hx : x ∈ (st.set k v).cache) :
    x ∈ st.cache ∨ x = (k, v) := by
  obtain ⟨ms, tt, cache, hh, mi, ev, szs, bs⟩ := st
  rw [FileCache.set] at hx
  dsimp only at hx ⊢
  by_cases hfull : ms ≤ cache.length
  · rw [if_pos hfull] at hx
    cases cache with
    | nil =>
      dsimp only at hx ⊢
      rcases mem_mapSet _ _ _ _ hx with h | h
      · exact Or.inl h
      · exact Or.inr h
    | cons hd rest =>
      dsimp only at hx ⊢
      rcases mem_mapSet _ _ _ _ hx with h | h
      · exact Or.inl (List.mem_cons_of_mem _ h)
      · exact Or.inr h
  · rw [if_neg hfull] at hx
    rcases mem_mapSet _ _ _ _ hx with h | h
    · exact Or.inl h
    · exact Or.inr h

theorem readFileWithCache_agrees (fsRead : String → Except String String)
    (fsStat : String → StatOutcome) (now : Nat) (st : FileCache)
    (filePath : String) (c : String) (m : Int) (sz : Nat)
    (hst : cacheAgrees fsRead fsStat now st)
    (hc : fsRead filePath = Except.ok c)
    (hm : fsStat filePath = StatOutcome.ok m sz) :
    (readFileWithCache st now fsRead fsStat filePath).1 = Except.ok c ∧
    cacheAgrees fsRead fsStat now (readFileWithCache st now fsRead fsStat filePath).2 := by
  cases hl : lookupMap st.cache (generateKey filePath) with
  | some ce =>
    have hmem : (generateKey filePath, ce) ∈ st.cache := lookupMap_mem _ _ _ hl
    obtain ⟨hce1, hce2, hce3, hce4⟩ := hst.2 (generateKey filePath) ce hmem
    have h' : fsRead filePath = Except.ok ce.content := hce1
    have hcec : ce.content = c := by
      rw [h'] at hc
      exact Except.ok.inj hc
    have hfresh : now - ce.timestamp < st.ttl := by
      rw [hce2, Nat.sub_self]
      exact hst.1
    have hmt : m ≤ ce.mtime := hce3 m sz hm
    have hget : FileCache.get st filePath now (fsStat filePath) (fsRead filePath) =
        (Except.ok ce.content, { st with hits := st.hits + 1 }) := by
      rw [hm]
      exact get_fresh_statok_hit st filePath now m sz (fsRead filePath) ce hl hfresh hmt
    have hres : readFileWithCache st now fsRead fsStat filePath =
        (Except.ok ce.content, { st with hits := st.hits + 1 }) := by
      rw [readFileWithCache, hget]
    rw [hres]
    exact ⟨by rw [hcec], hst.1, fun k e he => hst.2 k e he⟩
  | none =>
    have hget : FileCache.get st filePath now (fsStat filePath) (fsRead filePath) =
        (Except.ok c,
         FileCache.set { st with misses := st.misses + 1 } (generateKey filePath)
           { content := c, timestamp := now, mtime := m, size := c.length }) := by
      rw [get_absent st filePath now (fsStat filePath) (fsRead filePath) hl, hm, hc,
        FileCache.readMiss]
    have hres : readFileWithCache st now fsRead fsStat filePath =
        (Except.ok c,
         FileCache.set { st with misses := st.misses + 1 } (generateKey filePath)
           { content := c, timestamp := now, mtime := m, size := c.length }) := by
      rw [readFileWithCache, hget]
    rw [hres]
    refine ⟨rfl, ?_, ?_⟩
    · rw [(set_maxSize _ _ _).2]
      exact hst.1
    · intro k e he
      rcases mem_set_cache _ _ _ _ he with hold | hnew
      · exact hst.2 k e hold
      · injection hnew with hk he'
        subst hk
        subst he'
        refine ⟨hc, rfl, ?_, m, sz, hm⟩
        intro m' sz' hstat'
        have heq : StatOutcome.ok m sz = StatOutcome.ok m' sz' := by
          rw [← hm]
          exact hstat'
        injection heq with h1 h2
        rw [← h1]

theorem readFilesStep_ok (fsRead : String → Except String String)
    (fsStat : String → StatOutcome) (now : Nat) (rootPath : String)
    (acc : List (String × String)) (st st' : FileCache) (rel c : String)
    (hres : readFileWithCache st now fsRead fsStat (pathJoin rootPath rel) = (Except.ok c, st')) :
    readFilesStep fsRead fsStat now rootPath (acc, st) rel = (mapSet acc rel c, st') := by
  show (match readFileWithCache st now fsRead fsStat (pathJoin rootPath rel) with
        | (Except.ok content, stN) => (mapSet acc rel content, stN)
        | (Except.error _, stN) => (acc, stN)) = (mapSet acc rel c, st')
  rw [hres]

theorem optimized_foldl_eq (fsRead : String → Except String String)
    (fsStat : String → StatOutcome) (now : Nat) (rootPath : String) :
    ∀ (paths : List String) (acc : List (String × String)) (st : FileCache),
      cacheAgrees fsRead fsStat now st →
      (∀ rel ∈ paths,
        (∃ c, fsRead (pathJoin rootPath rel) = Except.ok c) ∧
        (∃ m sz, fsStat (pathJoin rootPath rel) = StatOutcome.ok m sz)) →
      (paths.foldl (readFilesStep fsRead fsStat now rootPath) (acc, st)).1 =
        paths.foldl
          (fun fileContents relativeFilePath =>
            match fsRead (pathJoin rootPath relativeFilePath) with
            | Except.ok content => mapSet fileContents relativeFilePath content
            | Except.error _ => fileContents) acc := by
  intro paths
  induction paths with
  | nil => intro acc st _ _; rfl
  | cons rel rest ih =>
    intro acc st hst hall
    obtain ⟨⟨c, hc⟩, ⟨m, sz, hm⟩⟩ := hall rel (List.mem_cons_self rel rest)
    obtain ⟨h1, h2⟩ := readFileWithCache_agrees fsRead fsStat now st
      (pathJoin rootPath rel) c m sz hst hc hm
    rw [List.foldl_cons, List.foldl_cons]
    cases hres : readFileWithCache st now fsRead fsStat (pathJoin rootPath rel) with
    | mk res st' =>
      have hrok : res = Except.ok c := by
        rw [hres] at h1
        exact h1
      subst hrok
      have h2' : cacheAgrees fsRead fsStat now st' := by
        rw [hres] at h2
        exact h2
      rw [readFilesStep_ok fsRead fsStat now rootPath acc st st' rel c hres, hc]
      exact ih (mapSet acc rel c) st' h2' (fun r hr => hall r (List.mem_cons_of_mem rel hr))

/-- Claim C10: on an unchanged filesystem where every listed path is readable
(its content read and its stat both succeed), the optimized `readFiles` —
batch processor, size-based smart reading, and the initially-empty file cache
— produces exactly the same relative-path-to-content map as the naive
`readFiles` that simply reads every path. -/
theorem c10_optimized_refines_naive
    (paths : List String) (rootPath : String)
    (fsRead : String → Except String String) (fsStat : String → StatOutcome) (now : Nat)
    (hall : ∀ rel ∈ paths,
      (∃ c, fsRead (pathJoin rootPath rel) = Except.ok c) ∧
      (∃ m sz, fsStat (pathJoin rootPath rel) = StatOutcome.ok m sz)) :
    ∀ rel : String,
      lookupMap (readFilesOptimized paths rootPath fsRead fsStat now) rel =
      lookupMap (readFiles paths rootPath fsRead) rel := by
  intro rel
  rw [readFilesOptimized, readFiles]
  rw [optimized_foldl_eq fsRead fsStat now rootPath paths [] (FileCache.init 500 600000)
    ⟨by decide, fun k e he => absurd he (List.not_mem_nil _)⟩ hall]

/-- Witness for C10: a concrete two-file filesystem; both readers agree on
the looked-up path. -/
theorem c10_witness :
    lookupMap
      (readFilesOptimized ["a.txt", "b.txt"] ""
        (fun p => Except.ok ("content of " ++ p))
        (fun _ => StatOutcome.ok 7 11) 42) "a.txt" =
    lookupMap
      (readFiles ["a.txt", "b.txt"] "" (fun p => Except.ok ("content of " ++ p)))
      "a.txt" :=
  c10_optimized_refines_naive ["a.txt", "b.txt"] ""
    (fun p => Except.ok ("content of " ++ p)) (fun _ => StatOutcome.ok 7 11) 42
    (fun rel _ => ⟨⟨"content of " ++ pathJoin "" rel, rfl⟩, 7, 11, rfl⟩) "a.txt"

/-! ## Claim C9 — `ReadMany` absorbs individual read failures
(both the naive reader and the optimized cache+limiter pipeline) -/

theorem smartReadFile_fails (fsRead : String → Except String String)
    (fsStat : String → StatOutcome) (filePath : String)
    (hfail : (∃ e, fsRead filePath = Except.error e) ∨ fsStat filePath = StatOutcome.fail) :
    ∃ msg, smartReadFile fsRead fsStat filePath = Except.error msg := by
  rw [smartReadFile]
  cases hs : fsStat filePath with
  | fail => exact ⟨_, rfl⟩
  | ok m sz =>
    show ∃ msg,
      (match (if sz < 1024 * 1024 then fsRead filePath else readFileStream fsRead filePath) with
       | Except.ok content => Except.ok content
       | Except.error e => Except.error ("读取文件 " ++ filePath ++ " 失败: " ++ e)) =
      Except.error msg
    rcases hfail with ⟨e, he⟩ | h
    · by_cases hsz : sz < 1024 * 1024
      · rw [if_pos hsz, he]
        exact ⟨_, rfl⟩
      · rw [if_neg hsz, readFileStream, he]
        exact ⟨_, rfl⟩
    · rw [hs] at h
      exact StatOutcome.noConfusion h

theorem readFileWithCache_fails (fsRead : String → Except String String)
    (fsStat : String → StatOutcome) (now : Nat) (st : FileCache) (filePath : String)
    (hst : cacheAgrees fsRead fsStat now st)
    (hfail : (∃ e, fsRead filePath = Except.error e) ∨ fsStat filePath = StatOutcome.fail) :
    (∃ msg, (readFileWithCache st now fsRead fsStat filePath).1 = Except.error msg) ∧
    cacheAgrees fsRead fsStat now (readFileWithCache st now fsRead fsStat filePath).2 := by
  cases hl : lookupMap st.cache (generateKey filePath) with
  | some ce =>
    exfalso
    have hmem : (generateKey filePath, ce) ∈ st.cache := lookupMap_mem _ _ _ hl
    obtain ⟨hce1, _, _, m, sz, hce4⟩ := hst.2 (generateKey filePath) ce hmem
    have h1 : fsRead filePath = Except.ok ce.content := hce1
    have h4 : fsStat filePath = StatOutcome.ok m sz := hce4
    rcases hfail with ⟨e, he⟩ | hs
    · rw [he] at h1
      exact Except.noConfusion h1
    · rw [hs] at h4
      exact StatOutcome.noConfusion h4
  | none =>
    obtain ⟨msg1, hsm⟩ := smartReadFile_fails fsRead fsStat filePath hfail
    have hget : FileCache.get st filePath now (fsStat filePath) (fsRead filePath) =
        FileCache.readMiss st (generateKey filePath) filePath now
          (fsStat filePath) (fsRead filePath) :=
      get_absent st filePath now (fsStat filePath) (fsRead filePath) hl
    have hrm : ∃ msg2, FileCache.readMiss st (generateKey filePath) filePath now
        (fsStat filePath) (fsRead filePath) =
        (Except.error msg2, { st with misses := st.misses + 1 }) := by
      cases hr : fsRead filePath with
      | ok c =>
        rcases hfail with ⟨e, he⟩ | hs
        · rw [hr] at he
          exact Except.noConfusion he
        · rw [hs, FileCache.readMiss]
          exact ⟨_, rfl⟩
      | error e =>
        cases hs : fsStat filePath with
        | ok m sz =>
          rw [FileCache.readMiss]
          exact ⟨_, rfl⟩
        | fail =>
          rw [FileCache.readMiss]
          exact ⟨_, rfl⟩
    obtain ⟨msg2, hrm⟩ := hrm
    have hres : readFileWithCache st now fsRead fsStat filePath =
        (Except.error msg1, { st with misses := st.misses + 1 }) := by
      rw [readFileWithCache, hget, hrm, hsm]
    rw [hres]
    exact ⟨⟨msg1, rfl⟩, hst.1, fun k e he => hst.2 k e he⟩

theorem readFilesStep_error (fsRead : String → Except String String)
    (fsStat : String → StatOutcome) (now : Nat) (rootPath : String)
    (acc : List (String × String)) (st st' : FileCache) (rel msg : String)
    (hres : readFileWithCache st now fsRead fsStat (pathJoin rootPath rel) =
      (Except.error msg, st')) :
    readFilesStep fsRead fsStat now rootPath (acc, st) rel = (acc, st') := by
  show (match readFileWithCache st now fsRead fsStat (pathJoin rootPath rel) with
        | (Except.ok content, stN) => (mapSet acc rel content, stN)
        | (Except.error _, stN) => (acc, stN)) = (acc, st')
  rw [hres]

theorem optimized_foldl_lookup (fsRead : String → Except String String)
    (fsStat : String → StatOutcome) (now : Nat) (rootPath : String) :
    ∀ (paths : List String) (acc : List (String × String)) (st : FileCache),
      cacheAgrees fsRead fsStat now st →
      ∀ rel : String,
        lookupMap (paths.foldl (readFilesStep fsRead fsStat now rootPath) (acc, st)).1 rel =
        (if rel ∈ paths then
          optionOr (readOutcome fsRead fsStat (pathJoin rootPath rel)) (lookupMap acc rel)
        else lookupMap acc rel) := by
  intro paths
  induction paths with
  | nil =>
    intro acc st _ rel
    simp
  | cons p rest ih =>
    intro acc st hst rel
    rw [List.foldl_cons]
    cases hr : fsRead (pathJoin rootPath p) with
    | ok c =>
      cases hs : fsStat (pathJoin rootPath p) with
      | ok m sz =>
        obtain ⟨h1, h2⟩ := readFileWithCache_agrees fsRead fsStat now st
          (pathJoin rootPath p) c m sz hst hr hs
        cases hres : readFileWithCache st now fsRead fsStat (pathJoin rootPath p) with
        | mk res st2 =>
          have hrok : res = Except.ok c := by
            rw [hres] at h1
            exact h1
          subst hrok
          have h2' : cacheAgrees fsRead fsStat now st2 := by
            rw [hres] at h2
            exact h2
          rw [readFilesStep_ok fsRead fsStat now rootPath acc st st2 p c hres]
          rw [ih (mapSet acc p c) st2 h2' rel]
          by_cases hrp : rel = p
          · subst hrp
            have hro : readOutcome fsRead fsStat (pathJoin rootPath rel) = some c := by
              rw [readOutcome, hr, hs]
            simp only [List.mem_cons, true_or, if_true, hro, optionOr]
            by_cases hmem : rel ∈ rest
            · simp only [hmem, if_true]
            · simp only [hmem, if_false, lookupMap_mapSet_self]
          · simp only [List.mem_cons, hrp, false_or,
              lookupMap_mapSet_ne acc p rel c (fun h => hrp h)]
      | fail =>
        obtain ⟨⟨msg, h1⟩, h2⟩ := readFileWithCache_fails fsRead fsStat now st
          (pathJoin rootPath p) hst (Or.inr hs)
        cases hres : readFileWithCache st now fsRead fsStat (pathJoin rootPath p) with
        | mk res st2 =>
          have hrerr : res = Except.error msg := by
            rw [hres] at h1
            exact h1
          subst hrerr
          have h2' : cacheAgrees fsRead fsStat now st2 := by
            rw [hres] at h2
            exact h2
          rw [readFilesStep_error fsRead fsStat now rootPath acc st st2 p msg hres]
          rw [ih acc st2 h2' rel]
          by_cases hrp : rel = p
          · subst hrp
            have hro : readOutcome fsRead fsStat (pathJoin rootPath rel) = none := by
              rw [readOutcome, hr, hs]
            simp only [List.mem_cons, true_or, if_true, hro, optionOr]
            by_cases hmem : rel ∈ rest
            · simp only [hmem, if_true]
            · simp only [hmem, if_false]
          · simp only [List.mem_cons, hrp, false_or]
    | error e =>
      obtain ⟨⟨msg, h1⟩, h2⟩ := readFileWithCache_fails fsRead fsStat now st
        (pathJoin rootPath p) hst (Or.inl ⟨e, hr⟩)
      cases hres : readFileWithCache st now fsRead fsStat (pathJoin rootPath p) with
      | mk res st2 =>
        have hrerr : res = Except.error msg := by
          rw [hres] at h1
          exact h1
        subst hrerr
        have h2' : cacheAgrees fsRead fsStat now st2 := by
          rw [hres] at h2
          exact h2
        rw [readFilesStep_error fsRead fsStat now rootPath acc st st2 p msg hres]
        rw [ih acc st2 h2' rel]
        by_cases hrp : rel = p
        · subst hrp
          have hro : readOutcome fsRead fsStat (pathJoin rootPath rel) = none := by
            rw [readOutcome, hr]
          simp only [List.mem_cons, true_or, if_true, hro, optionOr]
          by_cases hmem : rel ∈ rest
          · simp only [hmem, if_true]
          · simp only [hmem, if_false]
        · simp only [List.mem_cons, hrp, false_or]

/-- Claim C9: `ReadMany` never fails because an individual file fails to read,
in either implementation.  For the naive reader, a path maps to content in the
result exactly when it was requested and its read succeeded.  For the
optimized cache+limiter pipeline (the `ReadMany` the tools import), a path
maps to content exactly when it was requested and its per-path task succeeded
— its read and its stat both succeeded — so failing paths are simply omitted
while every successful entry of a partially-failing batch is still returned,
and `ReadMany(["missing.txt"], root, {})` is the empty map, not an error, for
both readers. -/
theorem c9_read_failures_absorbed :
    (∀ (paths : List String) (rootPath : String) (fsRead : String → Except String String)
        (rel content : String),
      lookupMap (readFiles paths rootPath fsRead) rel = some content ↔
        rel ∈ paths ∧ fsRead (pathJoin rootPath rel) = Except.ok content)
    ∧ (∀ (paths : List String) (rootPath : String) (fsRead : String → Except String String)
        (fsStat : String → StatOutcome) (now : Nat) (rel content : String),
      lookupMap (readFilesOptimized paths rootPath fsRead fsStat now) rel = some content ↔
        rel ∈ paths ∧ fsRead (pathJoin rootPath rel) = Except.ok content ∧
        ∃ m sz, fsStat (pathJoin rootPath rel) = StatOutcome.ok m sz)
    ∧ (∀ rootPath e : String,
        readFiles ["missing.txt"] rootPath (fun _ => Except.error e) = [])
    ∧ (∀ (rootPath e : String) (now : Nat),
        readFilesOptimized ["missing.txt"] rootPath (fun _ => Except.error e)
          (fun _ => StatOutcome.fail) now = []) := by
  refine ⟨?_, ?_, ?_, ?_⟩
  · intro paths rootPath fsRead rel content
    rw [readFiles, readFiles_lookup_aux]
    by_cases hmem : rel ∈ paths
    · simp only [hmem, if_true, true_and]
      cases hread : fsRead (pathJoin rootPath rel) with
      | ok c =>
        simp only [hread, Option.some_inj]
        constructor
        · intro h
          rw [h]
        · intro h
          injection h
      | error e => simp [hread, lookupMap]
    · simp [hmem, lookupMap]
  · intro paths rootPath fsRead fsStat now rel content
    rw [readFilesOptimized]
    rw [optimized_foldl_lookup fsRead fsStat now rootPath paths [] (FileCache.init 500 600000)
      ⟨by decide, fun k e he => absurd he (List.not_mem_nil _)⟩ rel]
    by_cases hmem : rel ∈ paths
    · simp only [hmem, if_true, true_and]
      cases hr : fsRead (pathJoin rootPath rel) with
      | ok c =>
        cases hs : fsStat (pathJoin rootPath rel) with
        | ok m sz =>
          have hro : readOutcome fsRead fsStat (pathJoin rootPath rel) = some c := by
            rw [readOutcome, hr, hs]
          rw [hro]
          simp only [optionOr]
          constructor
          · intro h
            refine ⟨?_, m, sz, rfl⟩
            rw [Option.some.inj h]
          · rintro ⟨hcc, _⟩
            rw [Except.ok.inj hcc]
        | fail =>
          have hro : readOutcome fsRead fsStat (pathJoin rootPath rel) = none := by
            rw [readOutcome, hr, hs]
          rw [hro]
          simp only [optionOr, lookupMap_nil]
          constructor
          · intro h
            exact Option.noConfusion h
          · rintro ⟨_, m', sz', hss⟩
            exact StatOutcome.noConfusion hss
      | error e =>
        have hro : readOutcome fsRead fsStat (pathJoin rootPath rel) = none := by
          rw [readOutcome, hr]
        rw [hro]
        simp only [optionOr, lookupMap_nil]
        constructor
        · intro h
          exact Option.noConfusion h
        · rintro ⟨hcc, _⟩
          exact Except.noConfusion hcc
    · simp only [hmem, if_false, lookupMap_nil, false_and]
      constructor
      · intro h
        exact Option.noConfusion h
      · intro h
        exact h.elim
  · intro rootPath e
    rfl
  · intro rootPath e now
    rfl

/-- Witness for C9: a two-path batch where one read fails still returns the
successful entry (for the naive and for the optimized reader), and the
missing-file scenario returns the empty map in both. -/
theorem c9_witness :
    (lookupMap
        (readFiles ["good.txt", "bad.txt"] ""
          (fun p => if p = "good.txt" then Except.ok "G" else Except.error "ENOENT"))
        "good.txt" = some "G")
    ∧ (lookupMap
        (readFilesOptimized ["good.txt", "bad.txt"] ""
          (fun p => if p = "good.txt" then Except.ok "G" else Except.error "ENOENT")
          (fun _ => StatOutcome.ok 7 11) 0)
        "good.txt" = some "G")
    ∧ readFiles ["missing.txt"] "root" (fun _ => Except.error "ENOENT") = []
    ∧ readFilesOptimized ["missing.txt"] "root" (fun _ => Except.error "ENOENT")
        (fun _ => StatOutcome.fail) 0 = [] :=
  ⟨(c9_read_failures_absorbed.1 ["good.txt", "bad.txt"] ""
      (fun p => if p = "good.txt" then Except.ok "G" else Except.error "ENOENT")
      "good.txt" "G").mpr ⟨by decide, rfl⟩,
   (c9_read_failures_absorbed.2.1 ["good.txt", "bad.txt"] ""
      (fun p => if p = "good.txt" then Except.ok "G" else Except.error "ENOENT")
      (fun _ => StatOutcome.ok 7 11) 0 "good.txt" "G").mpr
     ⟨by decide, rfl, 7, 11, rfl⟩,
   c9_read_failures_absorbed.2.2.1 "root" "ENOENT",
   c9_read_failures_absorbed.2.2.2 "root" "ENOENT" 0⟩
